import Mathlib

/-!
Verification of `VTIL-Common/io/formatting.hpp`.

Strings are modelled as `List Char` (for `std::string`) or `List ℕ` (for
`std::wstring`, whose code units we keep as numbers).  Machine integers are
modelled as `ℤ`/`ℕ` with explicit reductions modulo `2^64` where the source
relies on two's-complement behaviour.  The printf-family conversions used by
the header (`%llx`, `%.2f`) are modelled by executable functions defined
below.
-/

/-! ## Hexadecimal rendering (model of printf's `%llx`)

`%llx` prints its argument reinterpreted as an `unsigned long long`, in
natural-width lowercase hexadecimal.  `digitsGo` is a fuel-driven
most-significant-first digit emitter; the fuel `n + 1` always suffices since
the number of digits of `n` is at most `n + 1`. -/

def digitsGo (b : ℕ) : ℕ → ℕ → List Char
  | 0, _ => []
  | f + 1, n =>
    if n < b then [Nat.digitChar n]
    else digitsGo b f (n / b) ++ [Nat.digitChar (n % b)]

/-- Natural-width lowercase hexadecimal digits of `n`, as printed by `%llx`. -/
def hexNat (n : ℕ) : List Char := digitsGo 16 (n + 1) n

/-- Natural-width decimal digits of `n`, as printed by `%u`-style output. -/
def decNat (n : ℕ) : List Char := digitsGo 10 (n + 1) n

/-- Reinterpretation applied by `%llx` to its argument: reduce the
mathematical value of the passed integer modulo `2^64` (the conversion of a
signed value to `unsigned long long`). -/
def llx (z : ℤ) : ℕ := (z % 18446744073709551616).toNat

/-- Wrapping of a mathematical integer into the `int64_t` range, modelling
the two's-complement result of C++ arithmetic (such as the negation
`-value`) on `int64_t`. -/
def i64 (z : ℤ) : ℤ :=
  (z + 9223372036854775808) % 18446744073709551616 - 9223372036854775808

/-- Embedding of `vtil::format::hex` (formatting.hpp lines 288-300)
instantiated at the signed 64-bit type: `value >= 0` prints
`str("0x%llx", value)`, otherwise `str("-0x%llx", -value)`. -/
def hex (z : ℤ) : List Char :=
  if 0 ≤ z then ['0', 'x'] ++ hexNat (llx z)
  else ['-', '0', 'x'] ++ hexNat (llx (i64 (-z)))

/-- Embedding of `vtil::format::hex` at an unsigned 64-bit type:
`str("0x%llx", value)`. -/
def hexU64 (n : ℕ) : List Char :=
  ['0', 'x'] ++ hexNat (n % 18446744073709551616)

/-- Embedding of `vtil::format::offset` (formatting.hpp lines 304-308):
`value >= 0` prints `str("+ 0x%llx", value)`, otherwise
`str("- 0x%llx", -value)`. -/
def offset (z : ℤ) : List Char :=
  if 0 ≤ z then ['+', ' ', '0', 'x'] ++ hexNat (llx z)
  else ['-', ' ', '0', 'x'] ++ hexNat (llx (i64 (-z)))

/-! ## A signed-hexadecimal reader

The spec's round-trip property talks about "parsing `hex(n)` back as signed
hex"; the following reader follows those words: an optional minus sign, the
mandatory `0x`, then at least one lowercase hexadecimal digit. -/

def parseHexDigit (c : Char) : Option ℕ :=
  if c = '0' then some 0 else if c = '1' then some 1
  else if c = '2' then some 2 else if c = '3' then some 3
  else if c = '4' then some 4 else if c = '5' then some 5
  else if c = '6' then some 6 else if c = '7' then some 7
  else if c = '8' then some 8 else if c = '9' then some 9
  else if c = 'a' then some 10 else if c = 'b' then some 11
  else if c = 'c' then some 12 else if c = 'd' then some 13
  else if c = 'e' then some 14 else if c = 'f' then some 15
  else none

def parseHexGo : ℕ → List Char → Option ℕ
  | acc, [] => some acc
  | acc, c :: cs =>
    match parseHexDigit c with
    | some d => parseHexGo (16 * acc + d) cs
    | none => none

def parseHexNat (l : List Char) : Option ℕ :=
  match l with
  | [] => none
  | _ :: _ => parseHexGo 0 l

def parseHex0x (l : List Char) : Option ℕ :=
  match l with
  | c1 :: c2 :: ds => if c1 = '0' ∧ c2 = 'x' then parseHexNat ds else none
  | _ => none

def parseSignedHex (l : List Char) : Option ℤ :=
  match l with
  | [] => none
  | c :: rest =>
    if c = '-' then (parseHex0x rest).map (fun n => -(n : ℤ))
    else (parseHex0x l).map (fun n => (n : ℤ))

/-! ## The type-name prettifier (`impl::fix_type_name`, lines 87-106)

The C++ routine walks a fixed remove-list; for each entry it (a) restarts
on the suffix when the entry is a leading prefix of the current string, and
(b) scans the string left to right once, deleting the entry whenever it
immediately follows a `'<'`.  The scan of (b) advances one position per
iteration, so it is embedded below with one unit of fuel per examined
position (the initial length always suffices); the restarts of (a) strictly
shorten the string, so `length + 1` rounds of `passFrom` always suffice. -/

def startsWithL : List Char → List Char → Bool
  | [], _ => true
  | _ :: _, [] => false
  | p :: ps, c :: cs => p == c && startsWithL ps cs

/-- One left-to-right scan of the C++ inner loop for a single remove-list
entry `pat`: at each position, if the character is `'<'` and `pat` starts
the remaining suffix, that occurrence of `pat` is deleted; the scan then
moves one position to the right. -/
def innerGo (pat : List Char) : ℕ → List Char → List Char
  | 0, l => l
  | _ + 1, [] => []
  | f + 1, c :: rest =>
    if c = '<' ∧ startsWithL pat rest then
      c :: innerGo pat f (List.drop pat.length rest)
    else
      c :: innerGo pat f rest

/-- The remove-list of `impl::fix_type_name`:
`"struct "`, `"class "`, `"enum "`, `"vtil::"`. -/
def removeList : List (List Char) :=
  [ ['s', 't', 'r', 'u', 'c', 't', ' '],
    ['c', 'l', 'a', 's', 's', ' '],
    ['e', 'n', 'u', 'm', ' '],
    ['v', 't', 'i', 'l', ':', ':'] ]

/-- One pass of the C++ outer `for` over the remove-list.  `Sum.inl s`
means the pass hit the `starts_with` branch and the whole routine restarts
on `s` (the original string with the leading entry removed); `Sum.inr s`
means the pass ran to completion and the routine returns `s`. -/
def passFrom : List (List Char) → List Char → List Char ⊕ List Char
  | [], l => Sum.inr l
  | pat :: rest, l =>
    if startsWithL pat l then Sum.inl (List.drop pat.length l)
    else passFrom rest (innerGo pat l.length l)

def fixGo : ℕ → List Char → List Char
  | 0, l => l
  | f + 1, l =>
    match passFrom removeList l with
    | Sum.inl shorter => fixGo f shorter
    | Sum.inr done => done

/-- Embedding of `impl::fix_type_name`.  Each restart strictly shortens the
string, so `length + 1` rounds are always enough fuel (`fixGo_stable` below
shows the result does not depend on the fuel once it is sufficient). -/
def fix_type_name (l : List Char) : List Char := fixGo (l.length + 1) l

/-! ## The duration branch of `as_string` (lines 176-198)

A `std::chrono::duration` with period `num/den` seconds is modelled by its
integer tick count `v : ℤ` together with the pair `(num, den)`.
`duration_cast` to that type truncates; for the positive constants of the
unit table this is Nat floor division.  The `float` division
`x.count() / float(dur.count())` and the `"%.2f"` conversion of the source
are modelled by exact rational arithmetic (`fmt2`). -/

/-- The constant unit table of the duration branch: one hour, minute,
second, millisecond and nanosecond, each `duration_cast` (truncated) to a
tick count of the period `num/den` seconds, with the unit name and the
`last` flag exactly as in the source. -/
def durTable (num den : ℕ) : List (ℤ × List Char × Bool) :=
  [ ((3600 * den / num : ℕ), ['h', 'r', 's'], false),
    ((60 * den / num : ℕ), ['m', 'i', 'n'], false),
    ((den / num : ℕ), ['s', 'e', 'c'], false),
    ((den / (1000 * num) : ℕ), ['m', 's'], false),
    ((den / (1000000000 * num) : ℕ), ['n', 's'], true) ]

/-- The selection loop `for (auto& [dur, name, last] : durations) if (last
|| x > dur) return ...`: the first entry whose flag is set or whose tick
count is exceeded.  `none` models falling through to `unreachable()`. -/
def durationSelect (v : ℤ) : List (ℤ × List Char × Bool) → Option (ℤ × List Char)
  | [] => none
  | (d, name, last) :: rest =>
    if last = true ∨ d < v then some (d, name) else durationSelect v rest

/-- Model of `snprintf(buffer, 32, "%.2f", f)`: the value rounded to the
nearest hundredth rendered with exactly two digits after the point (the
binary `float` rounding of the source is modelled by exact rational
rounding). -/
def fmt2 (q : ℚ) : List Char :=
  let n : ℤ := round (q * 100)
  let w : List Char :=
    decNat (n.natAbs / 100) ++
      ['.', Nat.digitChar (n.natAbs / 10 % 10), Nat.digitChar (n.natAbs % 10)]
  if n < 0 then '-' :: w else w

/-- Embedding of the duration branch of `as_string`: select from the unit
table, then print `flt2str(x.count() / float(dur.count())) + name`.  The
`unreachable()` after the loop is modelled by `[]` (shown unreachable in
`duration_loop_total`). -/
def as_string_duration (num den : ℕ) (v : ℤ) : List Char :=
  match durationSelect v (durTable num den) with
  | some (d, name) => fmt2 ((v : ℚ) / (d : ℚ)) ++ name
  | none => []

/-- Spec-side unit choice, following the spec's words: the coarsest unit
among hours, minutes, seconds, milliseconds, nanoseconds whose converted
one-unit tick count is strictly exceeded by `v`; nanoseconds if none
qualifies. -/
def chooseUnitSpec (num den : ℕ) (v : ℤ) : ℤ × List Char :=
  if ((3600 * den / num : ℕ) : ℤ) < v then ((3600 * den / num : ℕ), ['h', 'r', 's'])
  else if ((60 * den / num : ℕ) : ℤ) < v then ((60 * den / num : ℕ), ['m', 'i', 'n'])
  else if ((den / num : ℕ) : ℤ) < v then ((den / num : ℕ), ['s', 'e', 'c'])
  else if ((den / (1000 * num) : ℕ) : ℤ) < v then ((den / (1000 * num) : ℕ), ['m', 's'])
  else ((den / (1000000000 * num) : ℕ), ['n', 's'])

/-! ## The optional, container, and wide-string branches of `as_string` -/

/-- Embedding of the `std::optional` branch (lines 201-210): the contained
value's stringification (`f`, modelling the recursive `as_string`) when
engaged, the literal `"nullopt"` otherwise. -/
def as_string_option {α : Type _} (f : α → List Char) : Option α → List Char
  | some v => f v
  | none => ['n', 'u', 'l', 'l', 'o', 'p', 't']

/-- The `if ( !items.empty() ) items.resize( items.size() - 2 );` step of
the container branch. -/
def chopSep (items : List Char) : List Char :=
  if items = [] then items else items.take (items.length - 2)

/-- Embedding of the container branch (lines 213-223): append
`as_string(entry) + ", "` for every element, chop the final two characters
when anything was appended, and wrap in braces (`Char.ofNat 123` and
`Char.ofNat 125` are the opening and closing brace characters). -/
def as_string_list {α : Type _} (f : α → List Char) (xs : List α) : List Char :=
  Char.ofNat 123 ::
    (chopSep (xs.foldl (fun acc e => acc ++ (f e ++ [',', ' '])) []) ++ [Char.ofNat 125])

/-- Spec-side comma-space join, following the spec's words
`join(", ", ...)`. -/
def joinSepSpec (sep : List Char) : List (List Char) → List Char
  | [] => []
  | [s] => s
  | s :: rest => s ++ sep ++ joinSepSpec sep rest

/-- Embedding of the wide-string branch (lines 168-175):
`std::string{ x.begin(), x.end() }` narrows every code unit individually.
Code units are kept as numbers; the conversion of a code unit to a narrow
`char` keeps its low byte. -/
def as_string_wide (w : List ℕ) : List ℕ := w.map (fun c => c % 256)

/-! ## The dispatch ladder of `as_string` (lines 150-225)

The `if constexpr` chain selects the first applicable conversion.  The
compile-time capability probes are modelled by a record of Booleans and the
branch bodies by the strings they would produce; the chain below mirrors
the source order exactly (note the single branch shared by `std::string`
and `const char*`). -/

structure Caps where
  stdConv : Bool
  customConv : Bool
  narrowStr : Bool
  narrowCStr : Bool
  wideStr : Bool
  wideCStr : Bool
  dur : Bool
  optT : Bool
  iter : Bool

def as_string_select (c : Caps) (rStd rCustom rNarrow rWide rWideC rDur rOpt rIter : List Char) :
    Option (List Char) :=
  if c.stdConv then some rStd
  else if c.customConv then some rCustom
  else if c.narrowStr || c.narrowCStr then some rNarrow
  else if c.wideStr then some rWide
  else if c.wideCStr then some rWideC
  else if c.dur then some rDur
  else if c.optT then some rOpt
  else if c.iter then some rIter
  else none

/-! ## The temporary ring buffer (`impl::buffer_string`, lines 73-83)

The per-thread state is the sixteen slots and the rotating index; the model
keeps the slot array as a function on ℕ (only indices below 16 are ever
written) and returns the index of the slot written, standing for the
pointer `ref.data()`. -/

structure RingState where
  buf : ℕ → List Char
  index : ℕ

/-- Embedding of `impl::buffer_string`: write `v` into the slot at the
current index, step the index by one modulo `std::size(ring_buffer) = 16`,
and return (the slot of) the written reference. -/
def buffer_string (st : RingState) (v : List Char) : RingState × ℕ :=
  (⟨fun j => if j = st.index then v else st.buf j, (st.index + 1) % 16⟩, st.index)

/-- A sequence of subsequent `buffer_string` calls on the same thread. -/
def ringCalls (st : RingState) (vs : List (List Char)) : RingState :=
  vs.foldl (fun s v => (buffer_string s v).1) st

/-! ## Lemmas about hexadecimal rendering -/

theorem digitsGo_fuel (b : ℕ) (hb : 2 ≤ b) :
    ∀ n f g : ℕ, n < f → n < g → digitsGo b f n = digitsGo b g n := by
  intro n
  induction n using Nat.strong_induction_on with
  | _ n ih =>
    intro f g hf hg
    cases f with
    | zero => omega
    | succ f =>
      cases g with
      | zero => omega
      | succ g =>
        by_cases h : n < b
        · simp [digitsGo, h]
        · have hdiv : n / b < n := Nat.div_lt_self (by omega) hb
          simp only [digitsGo, if_neg h]
          rw [ih (n / b) hdiv f g (by omega) (by omega)]

theorem hexNat_lt (n : ℕ) (h : n < 16) : hexNat n = [Nat.digitChar n] := by
  simp [hexNat, digitsGo, h]

theorem hexNat_step (n : ℕ) (h : 16 ≤ n) :
    hexNat n = hexNat (n / 16) ++ [Nat.digitChar (n % 16)] := by
  have hdiv : n / 16 < n := Nat.div_lt_self (by omega) (by omega)
  have h1 : digitsGo 16 (n + 1) n =
      if n < 16 then [Nat.digitChar n]
      else digitsGo 16 n (n / 16) ++ [Nat.digitChar (n % 16)] := rfl
  rw [hexNat, h1, if_neg (by omega : ¬ n < 16)]
  rw [digitsGo_fuel 16 (by omega) (n / 16) n (n / 16 + 1) hdiv (by omega)]
  rfl

theorem hexNat_ne_nil (n : ℕ) : hexNat n ≠ [] := by
  by_cases h : n < 16
  · simp [hexNat_lt n h]
  · simp [hexNat_step n (by omega)]

theorem parseHexDigit_digitChar (d : ℕ) (h : d < 16) :
    parseHexDigit (Nat.digitChar d) = some d := by
  interval_cases d <;> rfl

theorem parseHexGo_append (xs ys : List Char) (acc : ℕ) :
    parseHexGo acc (xs ++ ys) = (parseHexGo acc xs).bind (fun a => parseHexGo a ys) := by
  induction xs generalizing acc with
  | nil => rfl
  | cons c cs ih =>
    simp only [List.cons_append, parseHexGo]
    cases parseHexDigit c with
    | some d => exact ih (16 * acc + d)
    | none => rfl

theorem parseHexGo_single (a d : ℕ) (h : d < 16) :
    parseHexGo a [Nat.digitChar d] = some (16 * a + d) := by
  simp [parseHexGo, parseHexDigit_digitChar d h]

theorem parseHexGo_hexNat :
    ∀ n acc, parseHexGo acc (hexNat n) = some (acc * 16 ^ (hexNat n).length + n) := by
  intro n
  induction n using Nat.strong_induction_on with
  | _ n ih =>
    intro acc
    by_cases h : n < 16
    · rw [hexNat_lt n h, parseHexGo_single acc n h]
      simp only [List.length_cons, List.length_nil, pow_one, Option.some.injEq]
      omega
    · have hdiv : n / 16 < n := Nat.div_lt_self (by omega) (by omega)
      rw [hexNat_step n (by omega), parseHexGo_append]
      rw [ih (n / 16) hdiv acc]
      rw [Option.some_bind]
      rw [parseHexGo_single _ _ (Nat.mod_lt n (by omega))]
      have hlen : (hexNat (n / 16) ++ [Nat.digitChar (n % 16)]).length =
          (hexNat (n / 16)).length + 1 := by simp
      rw [hlen, pow_succ, Option.some.injEq]
      have key : ∀ C : ℕ, 16 * (C + n / 16) + n % 16 = C * 16 + n := fun C => by omega
      calc 16 * (acc * 16 ^ (hexNat (n / 16)).length + n / 16) + n % 16
          = acc * 16 ^ (hexNat (n / 16)).length * 16 + n := key _
        _ = acc * (16 ^ (hexNat (n / 16)).length * 16) + n := by ring

theorem parseHexNat_hexNat (n : ℕ) : parseHexNat (hexNat n) = some n := by
  obtain ⟨c, cs, hcc⟩ : ∃ c cs, hexNat n = c :: cs := by
    cases hl : hexNat n with
    | nil => exact absurd hl (hexNat_ne_nil n)
    | cons c cs => exact ⟨c, cs, rfl⟩
  have h2 : parseHexNat (hexNat n) = parseHexGo 0 (hexNat n) := by
    rw [hcc]; rfl
  rw [h2, parseHexGo_hexNat n 0]
  simp

theorem hexNat_head_ne_zero : ∀ n : ℕ, 0 < n → (hexNat n).head? ≠ some (Char.ofNat 48) := by
  intro n
  induction n using Nat.strong_induction_on with
  | _ n ih =>
    intro h
    by_cases hl : n < 16
    · rw [hexNat_lt n hl]
      interval_cases n <;> decide
    · have hdiv : n / 16 < n := Nat.div_lt_self (by omega) (by omega)
      rw [hexNat_step n (by omega)]
      obtain ⟨c, cs, hcc⟩ : ∃ c cs, hexNat (n / 16) = c :: cs := by
        cases hx : hexNat (n / 16) with
        | nil => exact absurd hx (hexNat_ne_nil _)
        | cons c cs => exact ⟨c, cs, rfl⟩
      have h16 : 0 < n / 16 := by omega
      have hne := ih (n / 16) hdiv h16
      rw [hcc] at hne ⊢
      simpa using hne

/-! ## Claims C4 and C5: `offset` and `hex` -/

theorem llx_of_nonneg (n : ℤ) (h0 : 0 ≤ n) (h2 : n < 9223372036854775808) :
    llx n = n.natAbs := by
  unfold llx
  omega

theorem llx_i64_neg (n : ℤ) (h1 : -9223372036854775808 ≤ n) (h0 : n < 0) :
    llx (i64 (-n)) = n.natAbs := by
  unfold llx i64
  omega

/-- C4: for every signed 64-bit integer `n`, `offset(n)` begins with `"+ "`
iff `n ≥ 0` and with `"- "` otherwise, and the remainder after the
two-character sign equals `"0x"` followed by the natural-width lowercase
hexadecimal of `|n|`. -/
theorem offset_sign_spec (n : ℤ)
    (h1 : -9223372036854775808 ≤ n) (h2 : n < 9223372036854775808) :
    ((offset n).take 2 = ['+', ' '] ↔ 0 ≤ n) ∧
    (n < 0 → (offset n).take 2 = ['-', ' ']) ∧
    (offset n).drop 2 = ['0', 'x'] ++ hexNat n.natAbs := by
  by_cases h0 : 0 ≤ n
  · rw [offset, if_pos h0, llx_of_nonneg n h0 h2]
    refine ⟨by simp [h0], fun hneg => absurd hneg (by omega), rfl⟩
  · rw [offset, if_neg h0, llx_i64_neg n h1 (by omega)]
    refine ⟨?_, fun _ => rfl, rfl⟩
    have ht : (['-', ' ', '0', 'x'] ++ hexNat n.natAbs).take 2 = ['-', ' '] := rfl
    rw [ht]
    constructor
    · intro hcontra
      exact absurd hcontra (by decide)
    · intro hpos
      exact absurd hpos h0

/-- Witness for C4 at the spec's concrete scenario `offset(-16) = "- 0x10"`. -/
theorem offset_sign_spec_witness :
    (offset (-16)).take 2 = ['-', ' '] ∧
    (offset (-16)).drop 2 = ['0', 'x'] ++ hexNat (Int.natAbs (-16)) :=
  ⟨(offset_sign_spec (-16) (by decide) (by decide)).2.1 (by decide),
   (offset_sign_spec (-16) (by decide) (by decide)).2.2⟩

/-- C5: for every integer in the supported (64-bit) range, `hex` emits
`"0x"` plus the natural-width lowercase hexadecimal when unsigned or signed
non-negative, `"-0x"` plus the hexadecimal of the absolute value when
signed negative ("natural width" being captured by the absence of a leading
zero digit), and re-reading the output as signed hexadecimal restores the
input. -/
theorem hex_roundtrip_spec (n : ℤ)
    (h1 : -9223372036854775808 ≤ n) (h2 : n < 9223372036854775808) :
    (0 ≤ n → hex n = ['0', 'x'] ++ hexNat n.natAbs) ∧
    (n < 0 → hex n = ['-', '0', 'x'] ++ hexNat n.natAbs) ∧
    (∀ m : ℕ, m < 18446744073709551616 → hexU64 m = ['0', 'x'] ++ hexNat m) ∧
    (n ≠ 0 → (hexNat n.natAbs).head? ≠ some (Char.ofNat 48)) ∧
    parseSignedHex (hex n) = some n := by
  have hu : ∀ m : ℕ, m < 18446744073709551616 → hexU64 m = ['0', 'x'] ++ hexNat m := by
    intro m hm
    rw [hexU64, Nat.mod_eq_of_lt hm]
  have hhd : n ≠ 0 → (hexNat n.natAbs).head? ≠ some (Char.ofNat 48) := by
    intro hne
    exact hexNat_head_ne_zero n.natAbs (by omega)
  by_cases h0 : 0 ≤ n
  · have hx : hex n = ['0', 'x'] ++ hexNat n.natAbs := by
      rw [hex, if_pos h0, llx_of_nonneg n h0 h2]
    refine ⟨fun _ => hx, fun hneg => absurd hneg (by omega), hu, hhd, ?_⟩
    rw [hx]
    obtain ⟨c, cs, hcc⟩ : ∃ c cs, hexNat n.natAbs = c :: cs := by
      cases hl : hexNat n.natAbs with
      | nil => exact absurd hl (hexNat_ne_nil _)
      | cons c cs => exact ⟨c, cs, rfl⟩
    rw [hcc]
    have hp : parseSignedHex ('0' :: 'x' :: c :: cs) =
        (parseHexNat (c :: cs)).map (fun m => (m : ℤ)) := by
      rw [parseSignedHex, if_neg (by decide : ¬ ('0' : Char) = '-')]
      rw [parseHex0x, if_pos ⟨rfl, rfl⟩]
    show parseSignedHex ('0' :: 'x' :: c :: cs) = some n
    rw [hp, ← hcc, parseHexNat_hexNat]
    show some ((n.natAbs : ℤ)) = some n
    exact congrArg some (by omega : ((n.natAbs : ℤ) = n))
  · have hx : hex n = ['-', '0', 'x'] ++ hexNat n.natAbs := by
      rw [hex, if_neg h0, llx_i64_neg n h1 (by omega)]
    refine ⟨fun hpos => absurd hpos h0, fun _ => hx, hu, hhd, ?_⟩
    rw [hx]
    obtain ⟨c, cs, hcc⟩ : ∃ c cs, hexNat n.natAbs = c :: cs := by
      cases hl : hexNat n.natAbs with
      | nil => exact absurd hl (hexNat_ne_nil _)
      | cons c cs => exact ⟨c, cs, rfl⟩
    rw [hcc]
    have hp : parseSignedHex ('-' :: '0' :: 'x' :: c :: cs) =
        (parseHexNat (c :: cs)).map (fun m => -(m : ℤ)) := by
      rw [parseSignedHex, if_pos rfl]
      rw [parseHex0x, if_pos ⟨rfl, rfl⟩]
    show parseSignedHex ('-' :: '0' :: 'x' :: c :: cs) = some n
    rw [hp, ← hcc, parseHexNat_hexNat]
    show some (-(n.natAbs : ℤ)) = some n
    exact congrArg some (by omega : (-(n.natAbs : ℤ) = n))

/-- Witness for C5 at the spec's concrete scenario `hex(-255) = "-0xff"`. -/
theorem hex_roundtrip_spec_witness :
    hex (-255) = ['-', '0', 'x'] ++ hexNat (Int.natAbs (-255)) ∧
    parseSignedHex (hex (-255)) = some (-255) :=
  ⟨(hex_roundtrip_spec (-255) (by decide) (by decide)).2.1 (by decide),
   (hex_roundtrip_spec (-255) (by decide) (by decide)).2.2.2.2⟩

/-! ## Claims C2 and C10: the duration branch -/

/-- C2: for every duration (period `num/den` seconds, tick count `v`), the
duration branch of `as_string` prints the ratio of `v` to one unit of the
chosen unit — the coarsest among hours, minutes, seconds, milliseconds and
nanoseconds whose one-unit tick count (after conversion into the value's
own tick type) is strictly exceeded, nanoseconds when none qualifies —
formatted with two decimal places and followed immediately by the unit
name. -/
theorem as_string_duration_spec (num den : ℕ) (v : ℤ) :
    as_string_duration num den v =
      fmt2 ((v : ℚ) / ((chooseUnitSpec num den v).1 : ℚ)) ++ (chooseUnitSpec num den v).2 := by
  by_cases c1 : 3600 * (den : ℤ) / (num : ℤ) < v
  · simp [as_string_duration, durTable, durationSelect, chooseUnitSpec, c1]
  · by_cases c2 : 60 * (den : ℤ) / (num : ℤ) < v
    · simp [as_string_duration, durTable, durationSelect, chooseUnitSpec, c1, c2]
    · by_cases c3 : (den : ℤ) / (num : ℤ) < v
      · simp [as_string_duration, durTable, durationSelect, chooseUnitSpec, c1, c2, c3]
      · by_cases c4 : (den : ℤ) / (1000 * (num : ℤ)) < v
        · simp [as_string_duration, durTable, durationSelect, chooseUnitSpec, c1, c2, c3, c4]
        · simp [as_string_duration, durTable, durationSelect, chooseUnitSpec, c1, c2, c3, c4]

/-- C10: the selection loop of the duration branch always returns inside
the loop — the final nanosecond entry carries the `last` flag, so
`durationSelect` never falls through to the `unreachable()` after the loop
(modelled by `none`). -/
theorem duration_loop_total (num den : ℕ) (v : ℤ) :
    (durationSelect v (durTable num den)).isSome = true := by
  by_cases c1 : 3600 * (den : ℤ) / (num : ℤ) < v
  · simp [durTable, durationSelect, c1]
  · by_cases c2 : 60 * (den : ℤ) / (num : ℤ) < v
    · simp [durTable, durationSelect, c1, c2]
    · by_cases c3 : (den : ℤ) / (num : ℤ) < v
      · simp [durTable, durationSelect, c1, c2, c3]
      · by_cases c4 : (den : ℤ) / (1000 * (num : ℤ)) < v
        · simp [durTable, durationSelect, c1, c2, c3, c4]
        · simp [durTable, durationSelect, c1, c2, c3, c4]

/-! ## Claim C3: the container branch -/

theorem foldl_items {α : Type _} (f : α → List Char) (sep : List Char) :
    ∀ (xs : List α) (acc : List Char),
      xs.foldl (fun a e => a ++ (f e ++ sep)) acc =
        acc ++ ((xs.map fun e => f e ++ sep).flatten) := by
  intro xs
  induction xs with
  | nil => intro acc; simp
  | cons x rest ih =>
    intro acc
    simp only [List.foldl_cons, List.map_cons, List.flatten_cons]
    rw [ih (acc ++ (f x ++ sep))]
    simp [List.append_assoc]

theorem flatten_chunks (sep : List Char) :
    ∀ (s : List Char) (ss : List (List Char)),
      ((s :: ss).map fun t => t ++ sep).flatten = joinSepSpec sep (s :: ss) ++ sep := by
  intro s ss
  induction ss generalizing s with
  | nil => simp [joinSepSpec]
  | cons t rest ih =>
    have hj : joinSepSpec sep (s :: t :: rest) = s ++ sep ++ joinSepSpec sep (t :: rest) := rfl
    simp only [List.map_cons, List.flatten_cons] at ih ⊢
    rw [ih t, hj]
    simp [List.append_assoc]

/-- C3: for every iterable of stringifiable elements, the container branch
of `as_string` produces an opening brace, the elements' stringifications in
iteration order joined by `", "`, and a closing brace; the empty container
gives exactly the two braces. -/
theorem as_string_container_spec {α : Type _} (f : α → List Char) (xs : List α) :
    as_string_list f xs =
      Char.ofNat 123 :: (joinSepSpec [',', ' '] (xs.map f) ++ [Char.ofNat 125]) := by
  cases xs with
  | nil => rfl
  | cons x rest =>
    unfold as_string_list
    rw [foldl_items f [',', ' '] (x :: rest) []]
    rw [List.nil_append]
    have hch : ((x :: rest).map fun e => f e ++ [',', ' ']) =
        ((x :: rest).map f).map fun t => t ++ [',', ' '] := by
      simp
    rw [hch, List.map_cons, flatten_chunks [',', ' '] (f x) (rest.map f)]
    set j := joinSepSpec [',', ' '] (f x :: rest.map f) with hj
    have hne : j ++ [',', ' '] ≠ [] := by simp
    unfold chopSep
    rw [if_neg hne]
    have hlen : (j ++ [',', ' ']).length - 2 = j.length := by simp
    rw [hlen, List.take_left]

/-! ## Claim C6: the optional branch -/

/-- C6: the optional branch of `as_string` returns the stringification of
the contained value when the optional is engaged and the literal
`"nullopt"` when it is disengaged. -/
theorem as_string_optional_spec {α : Type _} (f : α → List Char) :
    (∀ v : α, as_string_option f (some v) = f v) ∧
    as_string_option f none = ['n', 'u', 'l', 'l', 'o', 'p', 't'] :=
  ⟨fun _ => rfl, rfl⟩

/-! ## Claim C7: the wide-string branch -/

/-- C7: the wide-string branch of `as_string` preserves the number of code
units and narrows each code unit individually by truncation to its low
byte, with no Unicode-aware conversion. -/
theorem as_string_wide_spec (w : List ℕ) (i : ℕ) :
    (as_string_wide w).length = w.length ∧
    (i < w.length → (as_string_wide w).getD i 0 = w.getD i 0 % 256) := by
  constructor
  · simp [as_string_wide]
  · intro hi
    induction w generalizing i with
    | nil => simp at hi
    | cons c rest ih =>
      cases i with
      | zero => rfl
      | succ j =>
        have hj : j < rest.length := by simpa using hi
        simpa [as_string_wide, List.getD] using ih j hj

/-- Witness for C7 at the code units `[65, 656]` (U+0290 truncates to
`0x90`). -/
theorem as_string_wide_spec_witness :
    (as_string_wide [65, 656]).length = ([65, 656] : List ℕ).length ∧
    (as_string_wide [65, 656]).getD 1 0 = ([65, 656] : List ℕ).getD 1 0 % 256 :=
  ⟨(as_string_wide_spec [65, 656] 1).1, (as_string_wide_spec [65, 656] 1).2 (by decide)⟩

/-! ## Claim C8: the dispatch ladder -/

/-- C8: `as_string` dispatches first-match-wins in the source order —
standard numeric conversion first, then the member `to_string`, then the
narrow string / narrow C-string copy; in particular a value admitting both
the standard numeric conversion and a member `to_string` gets the standard
numeric result. -/
theorem as_string_priority_spec (c : Caps)
    (rStd rCustom rNarrow rWide rWideC rDur rOpt rIter : List Char) :
    (c.stdConv = true →
      as_string_select c rStd rCustom rNarrow rWide rWideC rDur rOpt rIter = some rStd) ∧
    (c.stdConv = false → c.customConv = true →
      as_string_select c rStd rCustom rNarrow rWide rWideC rDur rOpt rIter = some rCustom) ∧
    (c.stdConv = false → c.customConv = false → (c.narrowStr || c.narrowCStr) = true →
      as_string_select c rStd rCustom rNarrow rWide rWideC rDur rOpt rIter = some rNarrow) := by
  refine ⟨fun h1 => ?_, fun h1 h2 => ?_, fun h1 h2 h3 => ?_⟩
  · simp [as_string_select, h1]
  · simp [as_string_select, h1, h2]
  · simp [as_string_select, h1, h2, h3]

/-- Witness for C8: a value admitting both the standard numeric conversion
and a member `to_string` resolves to the standard numeric result. -/
theorem as_string_priority_spec_witness :
    as_string_select ⟨true, true, false, false, false, false, false, false, false⟩
      ['4', '2'] ['c'] ['n'] ['w'] ['p'] ['d'] ['o'] ['i'] = some ['4', '2'] :=
  (as_string_priority_spec ⟨true, true, false, false, false, false, false, false, false⟩
    ['4', '2'] ['c'] ['n'] ['w'] ['p'] ['d'] ['o'] ['i']).1 rfl

/-! ## Claim C9: the temporary ring buffer -/

theorem ringCalls_stable :
    ∀ (vs : List (List Char)) (st : RingState) (i : ℕ),
      st.index < 16 → i < 16 →
      (∀ t, t < vs.length → (st.index + t) % 16 ≠ i) →
      (ringCalls st vs).buf i = st.buf i := by
  intro vs
  induction vs with
  | nil => intro st i _ _ _; rfl
  | cons v rest ih =>
    intro st i hst hi hmiss
    have h0 : st.index ≠ i := by
      have := hmiss 0 (by simp)
      omega
    have hnext : ((buffer_string st v).1.index) = (st.index + 1) % 16 := rfl
    have hstep : (ringCalls st (v :: rest)).buf i =
        (ringCalls (buffer_string st v).1 rest).buf i := rfl
    rw [hstep]
    rw [ih (buffer_string st v).1 i (by rw [hnext]; omega) hi ?_]
    · show (if i = st.index then v else st.buf i) = st.buf i
      rw [if_neg (fun hc => h0 hc.symm)]
    · intro t ht
      have := hmiss (t + 1) (by simpa using Nat.succ_lt_succ ht)
      rw [hnext]
      omega

/-- C9: the ring holds sixteen slots and the rotating index stays in
`[0, 16)`; each `buffer_string` call writes the value into the slot at the
current index, advances the index by exactly one modulo sixteen, returns
(the slot of) the reference just written with the value in it, and that
slot's contents survive any fewer than sixteen subsequent `buffer_string`
calls on the same thread. -/
theorem buffer_string_ring_spec (st : RingState) (v : List Char) (vs : List (List Char))
    (hst : st.index < 16) (hvs : vs.length < 16) :
    (buffer_string st v).1.index < 16 ∧
    (buffer_string st v).1.index = (st.index + 1) % 16 ∧
    (buffer_string st v).2 = st.index ∧
    (buffer_string st v).1.buf ((buffer_string st v).2) = v ∧
    (ringCalls (buffer_string st v).1 vs).buf st.index = v := by
  have hnext : ((buffer_string st v).1.index) = (st.index + 1) % 16 := rfl
  refine ⟨by rw [hnext]; omega, rfl, rfl, ?_, ?_⟩
  · show (if st.index = st.index then v else st.buf st.index) = v
    rw [if_pos rfl]
  · rw [ringCalls_stable vs (buffer_string st v).1 st.index (by rw [hnext]; omega) hst ?_]
    · show (if st.index = st.index then v else st.buf st.index) = v
      rw [if_pos rfl]
    · intro t ht
      rw [hnext]
      omega

/-- Witness for C9 at a concrete state (index 3) with two subsequent
calls. -/
theorem buffer_string_ring_spec_witness :
    (buffer_string ⟨fun _ => [], 3⟩ ['v']).1.index = (3 + 1) % 16 ∧
    (buffer_string ⟨fun _ => [], 3⟩ ['v']).2 = 3 ∧
    (ringCalls (buffer_string ⟨fun _ => [], 3⟩ ['v']).1 [['a'], ['b']]).buf 3 = ['v'] :=
  ⟨(buffer_string_ring_spec ⟨fun _ => [], 3⟩ ['v'] [['a'], ['b']] (by decide) (by decide)).2.1,
   (buffer_string_ring_spec ⟨fun _ => [], 3⟩ ['v'] [['a'], ['b']] (by decide) (by decide)).2.2.1,
   (buffer_string_ring_spec ⟨fun _ => [], 3⟩ ['v'] [['a'], ['b']] (by decide) (by decide)).2.2.2.2⟩

/-! ## Claim C1: the prettifier and idempotence

The fuel-stability lemmas first show the embedding does not depend on the
particular (always-sufficient) fuel values, i.e. it is the function the C++
recursion computes. -/

theorem startsWithL_le :
    ∀ (pat l : List Char), startsWithL pat l = true → pat.length ≤ l.length := by
  intro pat
  induction pat with
  | nil => intro l _; simp
  | cons p ps ih =>
    intro l h
    cases l with
    | nil => exact absurd h (by simp [startsWithL])
    | cons c cs =>
      have h2 : startsWithL ps cs = true := by
        have := h
        simp [startsWithL] at this
        exact this.2
      simpa using Nat.succ_le_succ (ih cs h2)

theorem innerGo_length_le (pat : List Char) :
    ∀ (f : ℕ) (l : List Char), (innerGo pat f l).length ≤ l.length := by
  intro f
  induction f with
  | zero => intro l; exact le_refl _
  | succ f ih =>
    intro l
    cases l with
    | nil => simp [innerGo]
    | cons c rest =>
      by_cases hc : c = '<' ∧ startsWithL pat rest
      · rw [innerGo, if_pos hc]
        have h1 := ih (List.drop pat.length rest)
        have h2 : (List.drop pat.length rest).length ≤ rest.length := by
          rw [List.length_drop]; omega
        simpa using le_trans h1 h2
      · rw [innerGo, if_neg hc]
        simpa using ih rest

theorem passFrom_inl_shorter :
    ∀ (ps : List (List Char)) (l d : List Char), (∀ p ∈ ps, p ≠ []) →
      passFrom ps l = Sum.inl d → d.length < l.length := by
  intro ps
  induction ps with
  | nil => intro l d _ h; exact absurd h (by simp [passFrom])
  | cons pat rest ih =>
    intro l d hne h
    by_cases hs : startsWithL pat l
    · rw [passFrom, if_pos hs] at h
      have hd : d = List.drop pat.length l := (Sum.inl.injEq _ _).mp h.symm
      have hp1 : 1 ≤ pat.length :=
        List.length_pos.mpr (hne pat (List.mem_cons_self pat rest))
      have hp2 := startsWithL_le pat l hs
      rw [hd, List.length_drop]
      omega
    · rw [passFrom, if_neg hs] at h
      have h1 := ih (innerGo pat l.length l) d
        (fun p hp => hne p (List.mem_cons_of_mem pat hp)) h
      exact lt_of_lt_of_le h1 (innerGo_length_le pat l.length l)

theorem removeList_ne_nil : ∀ p ∈ removeList, p ≠ [] := by decide

/-- The result of `fixGo` is independent of the fuel whenever the fuel
exceeds the string length: the embedding computes the value of the C++
recursion. -/
theorem fixGo_stable :
    ∀ (k : ℕ) (l : List Char) (f g : ℕ), l.length ≤ k →
      l.length < f → l.length < g → fixGo f l = fixGo g l := by
  intro k
  induction k with
  | zero =>
    intro l f g hk hf hg
    have hl : l = [] := List.length_eq_zero.mp (by omega)
    subst hl
    cases f with
    | zero => omega
    | succ f =>
      cases g with
      | zero => omega
      | succ g =>
        have h0 : passFrom removeList [] = Sum.inr [] := rfl
        simp [fixGo, h0]
  | succ k ih =>
    intro l f g hk hf hg
    cases f with
    | zero => omega
    | succ f =>
      cases g with
      | zero => omega
      | succ g =>
        cases hp : passFrom removeList l with
        | inl d =>
          have hd := passFrom_inl_shorter removeList l d removeList_ne_nil hp
          have e1 : fixGo (f + 1) l = fixGo f d := by simp [fixGo, hp]
          have e2 : fixGo (g + 1) l = fixGo g d := by simp [fixGo, hp]
          rw [e1, e2]
          exact ih d f g (by omega) (by omega) (by omega)
        | inr r =>
          simp [fixGo, hp]

theorem innerGo_no_angle (pat : List Char) :
    ∀ (f : ℕ) (l : List Char), Char.ofNat 60 ∉ l → innerGo pat f l = l := by
  intro f
  induction f with
  | zero => intro l _; rfl
  | succ f ih =>
    intro l h
    cases l with
    | nil => rfl
    | cons c rest =>
      have hc : c ≠ '<' := by
        intro hcc
        exact h (by rw [← hcc]; exact List.mem_cons_self c rest)
      have hrest : Char.ofNat 60 ∉ rest := fun hm => h (List.mem_cons_of_mem c hm)
      rw [innerGo, if_neg (fun hand => hc hand.1)]
      rw [ih rest hrest]

theorem passFrom_no_angle :
    ∀ (ps : List (List Char)) (l : List Char), Char.ofNat 60 ∉ l →
      (passFrom ps l = Sum.inr l ∧ ∀ p ∈ ps, startsWithL p l = false) ∨
      (∃ p, startsWithL p l = true ∧ passFrom ps l = Sum.inl (List.drop p.length l) ∧
        p ∈ ps) := by
  intro ps
  induction ps with
  | nil => intro l _; exact Or.inl ⟨rfl, by simp⟩
  | cons pat rest ih =>
    intro l h
    by_cases hs : startsWithL pat l
    · exact Or.inr ⟨pat, hs, by rw [passFrom, if_pos hs], List.mem_cons_self pat rest⟩
    · have hpf : passFrom (pat :: rest) l = passFrom rest l := by
        rw [passFrom, if_neg hs, innerGo_no_angle pat l.length l h]
      cases ih l h with
      | inl hc =>
        refine Or.inl ⟨hpf.trans hc.1, ?_⟩
        intro p hp
        cases List.mem_cons.mp hp with
        | inl hpp => rw [hpp]; exact Bool.not_eq_true _ ▸ (by simpa using hs)
        | inr hpr => exact hc.2 p hpr
      | inr hc =>
        obtain ⟨p, h1, h2, h3⟩ := hc
        exact Or.inr ⟨p, h1, hpf.trans h2, List.mem_cons_of_mem pat h3⟩

theorem fixGo_no_angle :
    ∀ (f : ℕ) (l : List Char), Char.ofNat 60 ∉ l → l.length < f →
      Char.ofNat 60 ∉ fixGo f l ∧ ∀ p ∈ removeList, startsWithL p (fixGo f l) = false := by
  intro f
  induction f with
  | zero => intro l _ hf; omega
  | succ f ih =>
    intro l h hf
    cases passFrom_no_angle removeList l h with
    | inl hc =>
      have he : fixGo (f + 1) l = l := by simp [fixGo, hc.1]
      rw [he]
      exact ⟨h, hc.2⟩
    | inr hc =>
      obtain ⟨p, hps, hpe, hmem⟩ := hc
      have hnn : p ≠ [] := removeList_ne_nil p hmem
      have hp1 : 1 ≤ p.length := List.length_pos.mpr hnn
      have hp2 := startsWithL_le p l hps
      have he : fixGo (f + 1) l = fixGo f (List.drop p.length l) := by simp [fixGo, hpe]
      rw [he]
      refine ih (List.drop p.length l) (fun hm => h (List.mem_of_mem_drop hm)) ?_
      rw [List.length_drop]
      omega

theorem fixGo_fixpoint :
    ∀ (l : List Char), Char.ofNat 60 ∉ l →
      (∀ p ∈ removeList, startsWithL p l = false) →
      ∀ f : ℕ, fixGo (f + 1) l = l := by
  intro l h hall f
  cases passFrom_no_angle removeList l h with
  | inl hc => simp [fixGo, hc.1]
  | inr hc =>
    obtain ⟨p, hps, _, hmem⟩ := hc
    rw [hall p hmem] at hps
    exact absurd hps (by simp)

/-- C1 (amended): the prettifier is idempotent on every name string that
contains no `'<'` character (`Char.ofNat 60`). -/
theorem fix_type_name_idempotent_no_angle (l : List Char) (h : Char.ofNat 60 ∉ l) :
    fix_type_name (fix_type_name l) = fix_type_name l := by
  obtain ⟨h1, h2⟩ := fixGo_no_angle (l.length + 1) l h (by omega)
  show fixGo ((fixGo (l.length + 1) l).length + 1) (fixGo (l.length + 1) l) =
    fixGo (l.length + 1) l
  exact fixGo_fixpoint (fixGo (l.length + 1) l) h1 h2 _

/-- Witness for the amended C1 at the input `"struct foo"` (which
prettifies to `"foo"`). -/
theorem fix_type_name_idempotent_no_angle_witness :
    Char.ofNat 60 ∉ (['s', 't', 'r', 'u', 'c', 't', ' ', 'f', 'o', 'o'] : List Char) ∧
    fix_type_name (fix_type_name ['s', 't', 'r', 'u', 'c', 't', ' ', 'f', 'o', 'o']) =
      fix_type_name ['s', 't', 'r', 'u', 'c', 't', ' ', 'f', 'o', 'o'] :=
  ⟨by decide, fix_type_name_idempotent_no_angle _ (by decide)⟩

/-- C1 counterexample: the prettifier is not idempotent.  On the input
`"<class struct x"` one application yields `"<struct x"` (the single
left-to-right scan removes `"class "` after the `'<'` but has already run
its `"struct "` pass), while a second application yields `"<x"`. -/
theorem fix_type_name_not_idempotent :
    fix_type_name (fix_type_name
        ['<', 'c', 'l', 'a', 's', 's', ' ', 's', 't', 'r', 'u', 'c', 't', ' ', 'x']) ≠
      fix_type_name
        ['<', 'c', 'l', 'a', 's', 's', ' ', 's', 't', 'r', 'u', 'c', 't', ' ', 'x'] := by
  decide
